import Mathlib

/-
  Verification of the radixtree router (src/method.rs, src/tree.rs).

  Shallow embedding conventions:
  * Rust `String` / `&str` values are embedded as `List Char`; `path.len()`,
    `chars().skip`, `chars().take` all agree on the character level for the
    paths the tree manipulates.
  * `HashMap<Method, V>` is embedded as an association list `List (Method × V)`
    with insert-replaces-existing-key semantics; `get`, `contains_key` and
    `is_empty` coincide with the HashMap observable behaviour.
  * The two parallel vectors `static_indices : Vec<char>` and
    `static_child : Vec<Option<Node>>` are kept in lockstep by the source
    (pushed together, removed together, addressed by a shared index, and the
    entries are always `Some` outside of transient `replace` calls); they are
    embedded as one list of pairs `List (Char × Node V)`.
  * Functions that can `panic!` are embedded with `Except`; each panic site
    becomes a distinct error constructor.
  * The recursions of the engine consume part of the remaining path at every
    level, or descend into a structurally smaller node with the same path.
    The embedding uses an explicit fuel argument so that every definition is
    structurally recursive and computable by the kernel; the public wrappers
    pass `path.length + 1` fuel, which is always sufficient because every
    nested call strictly shrinks the path.
-/

set_option autoImplicit false

namespace RadixTree

/-! ## Method (src/method.rs) -/

/-- The nine HTTP verbs of `enum Inner` in src/method.rs. -/
inductive Method : Type where
  | get | post | head | put | patch | delete | options | connect | trace
deriving DecidableEq, Repr, Inhabited

/-- `strip_start_slash`: drop a single leading `/` if present. -/
def strip_start_slash (p : List Char) : List Char :=
  match p with
  | '/' :: rest => rest
  | _ => p

/-- `path.chars().position(|c| c == '/')`. -/
def find_slash : List Char → Option Nat
  | [] => none
  | c :: rest => if c = '/' then some 0 else (find_slash rest).map (· + 1)

/-- `position(|c| c == '/').unwrap_or(path_len)`. -/
def next_slash_pos (p : List Char) : Nat :=
  (find_slash p).getD p.length

/-- `path.starts_with(q)` on character lists: `starts_with p q` is true when
`q` is a leading segment of `p`. -/
def starts_with : List Char → List Char → Bool
  | _, [] => true
  | [], _ :: _ => false
  | a :: as_, b :: bs => if a = b then starts_with as_ bs else false

/-- `path.chars().zip(other.chars()).take_while(|(l, r)| l == r).count()`
from `split_common_prefix`. -/
def common_prefix_len : List Char → List Char → Nat
  | a :: as_, b :: bs => if a = b then common_prefix_len as_ bs + 1 else 0
  | _, _ => 0

/-! ## Handler maps: `HashMap<Method, V>` as an association list -/

section Tree

variable {V : Type}

/-- `HashMap::get`. -/
def hm_get : List (Method × V) → Method → Option V
  | [], _ => none
  | (k, v) :: t, m => if k = m then some v else hm_get t m

/-- `HashMap::contains_key`. -/
def hm_contains (h : List (Method × V)) (m : Method) : Bool :=
  (hm_get h m).isSome

/-- `HashMap::insert` (replaces the value when the key is present). -/
def hm_insert : List (Method × V) → Method → V → List (Method × V)
  | [], m, v => [(m, v)]
  | (k, w) :: t, m, v => if k = m then (k, v) :: t else (k, w) :: hm_insert t m v

/-! ## The tree node (struct Node in src/tree.rs) -/

/-- `struct Node<V>` with fields, in order: `path`, the merged
`static_indices`/`static_child` pairs, `param_child`, `star_child`,
`leaf_handler`, `leaf_param_names`. -/
inductive Node (V : Type) : Type where
  | mk (path : List Char) (static_child : List (Char × Node V))
       (param_child : Option (Node V)) (star_child : Option (Node V))
       (leaf_handler : List (Method × V))
       (leaf_param_names : Option (List (List Char))) : Node V

/-- Field `path`. -/
def Node.path : Node V → List Char
  | .mk a _ _ _ _ _ => a

/-- Fields `static_indices`/`static_child` as one list of pairs. -/
def Node.static_child : Node V → List (Char × Node V)
  | .mk _ a _ _ _ _ => a

/-- Field `param_child`. -/
def Node.param_child : Node V → Option (Node V)
  | .mk _ _ a _ _ _ => a

/-- Field `star_child`. -/
def Node.star_child : Node V → Option (Node V)
  | .mk _ _ _ a _ _ => a

/-- Field `leaf_handler`. -/
def Node.leaf_handler : Node V → List (Method × V)
  | .mk _ _ _ _ a _ => a

/-- Field `leaf_param_names`. -/
def Node.leaf_param_names : Node V → Option (List (List Char))
  | .mk _ _ _ _ _ a => a

/-- `Node::default()`: empty path, no children, no handlers. -/
def Node.default_node : Node V := .mk [] [] none none [] none

/-- `Node::new()`: the root, `path = "/"`, everything else default. -/
def Node.new : Node V := .mk "/".toList [] none none [] none

/-- Replace the `path` field (the in-place `v.path = ...` assignments). -/
def Node.with_path : Node V → List Char → Node V
  | .mk _ b c d e f, p => .mk p b c d e f

/-- Replace the `leaf_param_names` field
(`node.leaf_param_names = param_names` in the wildcard insert). -/
def Node.with_lpn : Node V → Option (List (List Char)) → Node V
  | .mk a b c d e _, l => .mk a b c d e l

/-- The `for (i, c) in self.static_indices` loops: find the first static
child whose index character equals `c`. -/
def static_find : List (Char × Node V) → Char → Option (Node V)
  | [], _ => none
  | (ch, child) :: tl, c => if ch = c then some child else static_find tl c

/-- Write back `self.static_child[i] = ...` at the first index whose
character equals `c`. -/
def replace_static : List (Char × Node V) → Char → Node V → List (Char × Node V)
  | [], _, _ => []
  | (ch, child) :: tl, c, nd =>
    if ch = c then (ch, nd) :: tl else (ch, child) :: replace_static tl c nd

/-- `self.static_child.remove(i); self.static_indices.remove(i)` at the first
index whose character equals `c`. -/
def erase_static : List (Char × Node V) → Char → List (Char × Node V)
  | [], _ => []
  | (ch, child) :: tl, c => if ch = c then tl else (ch, child) :: erase_static tl c

/-! ## Errors: the panic sites of insert/update -/

/-- The panic sites of `insert_path`/`set_handler`, plus `broken_node` for
the two spots where the source indexes a static child whose stored index
character is guaranteed (by the invariant that an index character is the
first character of its child's nonempty path) to match; those spots are
unreachable for trees built through the API. -/
inductive InsertErr : Type where
  | duplicate_route : InsertErr
  | ambiguous : List (List Char) → List (List Char) → InsertErr
  | param_count_mismatch : InsertErr
  | chars_after_star : InsertErr
  | broken_node : InsertErr
deriving DecidableEq, Repr

/-- The panic site of `update_handler`. -/
inductive UpdateErr : Type where
  | no_such_method : UpdateErr
deriving DecidableEq, Repr

/-- `Node::set_handler`: panics when the method is already registered. -/
def Node.set_handler : Node V → Method → V → Except InsertErr (Node V)
  | .mk sp sc pc st lh lpn, m, v =>
    if hm_contains lh m then .error .duplicate_route
    else .ok (.mk sp sc pc st (hm_insert lh m v) lpn)

/-- `Node::update_handler`: panics when the method is not registered. -/
def Node.update_handler : Node V → Method → V → Except UpdateErr (Node V)
  | .mk sp sc pc st lh lpn, m, v =>
    if hm_contains lh m then .ok (.mk sp sc pc st (hm_insert lh m v) lpn)
    else .error .no_such_method

/-- `Node::split_common_prefix` restricted to the one child it touches:
given the matched static child and the current token, return the replacement
child and the length of the common prefix.  When the child's stored segment
is a full prefix of the token nothing is restructured; otherwise a fresh
intermediate node holding the common prefix is created and the demoted child
(with only its suffix as path) becomes its sole static branch. -/
def split_child (child : Node V) (token : List Char) : Node V × Nat :=
  if starts_with token child.path then (child, child.path.length)
  else
    let len := common_prefix_len token child.path
    let child_path := child.path.drop len
    -- `child_path.chars().next().unwrap()`: nonempty here because
    -- `len < child.path.length` whenever the prefix test above fails.
    (Node.mk (token.take len) [(child_path.headD 'A', child.with_path child_path)]
      none none [] none, len)

/-- The token end for a non-empty remaining path `c :: rest`: a leading `/`
is its own one-character token, otherwise the token runs to the next `/`
(or the end of the string). -/
def insert_token_end (c : Char) (rest : List Char) : Nat :=
  if c = '/' then 1 else next_slash_pos (c :: rest)

/-- The token consumed by one insertion step. -/
def insert_token (c : Char) (rest : List Char) : List Char :=
  (c :: rest).take (insert_token_end c rest)

/-- The remaining path after one insertion step. -/
def insert_remaining (c : Char) (rest : List Char) : List Char :=
  (c :: rest).drop (insert_token_end c rest)

/-- The parameter name: the token without its leading `$`. -/
def param_name (c : Char) (rest : List Char) : List Char :=
  (insert_token c rest).drop 1

/-- Append a parameter name to the accumulated name list (creating the list
at the first parameter). -/
def push_param_name (na : Option (List (List Char))) (pname : List Char) :
    Option (List (List Char)) :=
  match na with
  | some l => some (l ++ [pname])
  | none => some [pname]

/-- Reuse an existing child or create the given fresh one
(`if self.param_child.is_none() { ... }` and the `*` analogue). -/
def opt_child (o : Option (Node V)) (d : Node V) : Node V :=
  match o with
  | some q => q
  | none => d

/-- A second, spec-side definition (for the refinement claim C4): the
spec's notion of a concrete path consistent with a registered path pattern
(spec sections 6 and 8).  `pattern_consistent q p pnames vals` says the
concrete path `p` instantiates the pattern `q`: pattern tokens that do not
declare a parameter or wildcard must appear literally in `p`; a `$name`
token consumes exactly one non-empty slash-free segment of `p` (the
parameter's value); a final `*` token consumes the non-empty remainder of
`p` (the engine only consults the wildcard while path characters remain).
`pnames` and `vals` collect the parameter names and values left to right. -/
inductive pattern_consistent :
    List Char → List Char → List (List Char) → List (List Char) → Prop where
  | nil : pattern_consistent [] [] [] []
  | static (c : Char) (rest p : List Char) (pnames vals : List (List Char)) :
      c ≠ '$' → c ≠ '*' →
      pattern_consistent (insert_remaining c rest) p pnames vals →
      pattern_consistent (c :: rest) (insert_token c rest ++ p) pnames vals
  | param (rest p value : List Char) (pnames vals : List (List Char)) :
      value ≠ [] → find_slash value = none →
      pattern_consistent (insert_remaining '$' rest) p pnames vals →
      pattern_consistent ('$' :: rest) (value ++ p)
        (param_name '$' rest :: pnames) (value :: vals)
  | star (p : List Char) :
      p ≠ [] → pattern_consistent ['*'] p [] []

/-! ## insert (Node::insert_path)

The `fuel` argument makes the recursion structural; every recursive call is
made with a strictly shorter remaining path, so the `path.length + 1` fuel
supplied by the public wrapper never runs out. -/

/-- `Node::insert_path`.  `na` is the `param_names` accumulator threaded
through the recursion. -/
def Node.insert_path : Nat → Node V → Method → List Char → V →
    Option (List (List Char)) → Except InsertErr (Node V)
  | 0, _, _, _, _, _ => .error .broken_node
  | fuel + 1, .mk sp sc pc st lh lpn, m, p, v, na =>
    match p with
    | [] =>
      -- Leaf registration: reconcile the accumulated parameter names with
      -- the ones recorded at this leaf, then register the handler.
      match na with
      | none => Node.set_handler (.mk sp sc pc st lh lpn) m v
      | some names =>
        match lpn with
        | none => Node.set_handler (.mk sp sc pc st lh (some names)) m v
        | some leaf_names =>
          if names.length ≠ leaf_names.length then .error .param_count_mismatch
          else if names ≠ leaf_names then .error (.ambiguous leaf_names names)
          else Node.set_handler (.mk sp sc pc st lh (some leaf_names)) m v
    | c :: rest =>
      if c = '$' then
        -- Path parameter: reuse the positional param child or create one
        -- whose path is the parameter name (the token without `$`).
        match Node.insert_path fuel
            (opt_child pc (Node.mk (param_name c rest) [] none none [] none)) m
            (insert_remaining c rest) v (push_param_name na (param_name c rest)) with
        | .error e => .error e
        | .ok pchild2 => .ok (.mk sp sc (some pchild2) st lh lpn)
      else if c = '*' then
        if (c :: rest) ≠ ['*'] then .error .chars_after_star
        else
          match Node.set_handler (opt_child st Node.default_node) m v with
          | .error e => .error e
          | .ok schild2 => .ok (.mk sp sc pc (some (schild2.with_lpn na)) lh lpn)
      else
        match static_find sc c with
        | some child =>
          -- An existing node starts with the same letter: split on the
          -- common prefix and continue past the consumed length.
          if (split_child child (insert_token c rest)).2 = 0 then .error .broken_node
          else
            match Node.insert_path fuel (split_child child (insert_token c rest)).1 m
                ((c :: rest).drop (split_child child (insert_token c rest)).2) v na with
            | .error e => .error e
            | .ok child2 => .ok (.mk sp (replace_static sc c child2) pc st lh lpn)
        | none =>
          -- No node starts with this letter: create it and descend
          -- token by token.
          match Node.insert_path fuel (Node.mk (insert_token c rest) [] none none [] none) m
              (insert_remaining c rest) v na with
          | .error e => .error e
          | .ok child2 => .ok (.mk sp (sc ++ [(c, child2)]) pc st lh lpn)

/-! ## remove (Node::remove_path) -/

/-- `Node::remove_path`.  The fall-through value (computed when no static
child handles the path, exactly the `$`/`*` checks at the end of the Rust
function) is bound up front; being pure, this does not change behaviour. -/
def Node.remove_path : Nat → Node V → List Char → Node V
  | 0, n, _ => n
  | fuel + 1, .mk sp sc pc st lh lpn, p =>
    match p with
    | [] => .mk sp sc pc st [] none
    | c :: rest =>
      let star_fb : Node V :=
        if c = '*' then .mk sp sc pc none lh lpn else .mk sp sc pc st lh lpn
      let fallback : Node V :=
        if c = '$' then
          match pc with
          | some pchild =>
            let pchild2 := Node.remove_path fuel pchild
              ((c :: rest).drop (next_slash_pos (c :: rest)))
            if pchild2.leaf_handler.isEmpty ∧ pchild2.static_child.isEmpty then
              .mk sp sc none st lh lpn
            else .mk sp sc (some pchild2) st lh lpn
          | none => star_fb
        else star_fb
      match static_find sc c with
      | some child =>
        if child.path ≠ [] ∧ starts_with (c :: rest) child.path then
          let child2 := Node.remove_path fuel child ((c :: rest).drop child.path.length)
          if child2.leaf_handler.isEmpty ∧ child2.static_child.isEmpty ∧
              child2.param_child.isNone ∧ child2.star_child.isNone then
            -- Remove the now fully empty static child node.
            .mk sp (erase_static sc c) pc st lh lpn
          else if child2.leaf_handler.isEmpty ∧ child2.static_child.length = 1 ∧
              child2.param_child.isNone ∧ child2.path ≠ ['/'] then
            -- Merge a handler-less chain link into its single static child.
            match child2.static_child with
            | (_, gchild) :: _ =>
              if gchild.path ≠ ['/'] then
                .mk sp (replace_static sc c (gchild.with_path (child2.path ++ gchild.path)))
                  pc st lh lpn
              else .mk sp (replace_static sc c child2) pc st lh lpn
            | [] => .mk sp (replace_static sc c child2) pc st lh lpn
          else .mk sp (replace_static sc c child2) pc st lh lpn
        else fallback
      | none => fallback

/-! ## update (Node::update_path) -/

/-- `Node::update_path`: same descent as removal; replaces the handler value
at the target, erring only through `update_handler`. -/
def Node.update_path : Nat → Node V → Method → List Char → V → Except UpdateErr (Node V)
  | 0, _, _, _, _ => .error .no_such_method
  | fuel + 1, .mk sp sc pc st lh lpn, m, p, v =>
    match p with
    | [] => Node.update_handler (.mk sp sc pc st lh lpn) m v
    | c :: rest =>
      let star_fb : Except UpdateErr (Node V) :=
        if c = '*' then
          match st with
          | some schild =>
            match Node.update_handler schild m v with
            | .error e => .error e
            | .ok schild2 => .ok (.mk sp sc pc (some schild2) lh lpn)
          | none => .ok (.mk sp sc pc st lh lpn)
        else .ok (.mk sp sc pc st lh lpn)
      let fallback : Except UpdateErr (Node V) :=
        if c = '$' then
          match pc with
          | some pchild =>
            match Node.update_path fuel pchild m
                ((c :: rest).drop (next_slash_pos (c :: rest))) v with
            | .error e => .error e
            | .ok pchild2 => .ok (.mk sp sc (some pchild2) st lh lpn)
          | none => star_fb
        else star_fb
      match static_find sc c with
      | some child =>
        if child.path ≠ [] ∧ starts_with (c :: rest) child.path then
          match Node.update_path fuel child m ((c :: rest).drop child.path.length) v with
          | .error e => .error e
          | .ok child2 => .ok (.mk sp (replace_static sc c child2) pc st lh lpn)
        else fallback
      | none => fallback

/-! ## search (Node::internal_search) -/

/-- `struct MatchResult<V>`. -/
structure MatchResult (V : Type) : Type where
  value : Option V
  param_names : List (List Char)
  param_values : List (List Char)
deriving Repr

/-- `Node::internal_search`: static branch first; a result carrying a value
returns immediately; otherwise the parameter branch (non-empty segment
only), then the wildcard. -/
def Node.internal_search : Nat → Node V → Method → List Char → Option (MatchResult V)
  | 0, _, _, _ => none
  | fuel + 1, .mk _ sc pc st lh lpn, m, p =>
    match p with
    | [] =>
      if lh.isEmpty then none
      else some ⟨hm_get lh m, lpn.getD [], []⟩
    | c :: rest =>
      let found : Option (MatchResult V) :=
        match static_find sc c with
        | some child =>
          if child.path ≠ [] ∧ starts_with (c :: rest) child.path then
            Node.internal_search fuel child m ((c :: rest).drop child.path.length)
          else none
        | none => none
      if (found.filter fun mr => mr.value.isSome).isSome then found
      else
        let param_found : Option (MatchResult V) :=
          match pc with
          | some pchild =>
            let ns := next_slash_pos (c :: rest)
            let pvalue := (c :: rest).take ns
            if pvalue = [] then none
            else
              match Node.internal_search fuel pchild m ((c :: rest).drop ns) with
              | some mr =>
                if mr.value.isSome then
                  some { mr with param_values := pvalue :: mr.param_values }
                else none
              | none => none
          | none => none
        match param_found with
        | some mr => some mr
        | none =>
          match st with
          | some schild =>
            match hm_get schild.leaf_handler m with
            | some v => some ⟨some v, schild.leaf_param_names.getD [], []⟩
            | none => none
          | none => none

/-- The static part of one `internal_search` step (the first `for` loop and
prefix test), with `fuel` the fuel of the recursive call. -/
def Node.static_attempt (fuel : Nat) (n : Node V) (m : Method) (p : List Char) :
    Option (MatchResult V) :=
  match p with
  | [] => none
  | c :: rest =>
    match static_find n.static_child c with
    | some child =>
      if child.path ≠ [] ∧ starts_with (c :: rest) child.path then
        Node.internal_search fuel child m ((c :: rest).drop child.path.length)
      else none
    | none => none

/-- The parameter-then-wildcard tail of one `internal_search` step: what the
search does after the static branch produced no full match. -/
def Node.param_star_fallback (fuel : Nat) (n : Node V) (m : Method) (p : List Char) :
    Option (MatchResult V) :=
  match p with
  | [] => none
  | c :: rest =>
    let param_found : Option (MatchResult V) :=
      match n.param_child with
      | some pchild =>
        let ns := next_slash_pos (c :: rest)
        let pvalue := (c :: rest).take ns
        if pvalue = [] then none
        else
          match Node.internal_search fuel pchild m ((c :: rest).drop ns) with
          | some mr =>
            if mr.value.isSome then
              some { mr with param_values := pvalue :: mr.param_values }
            else none
          | none => none
      | none => none
    match param_found with
    | some mr => some mr
    | none =>
      match n.star_child with
      | some schild =>
        match hm_get schild.leaf_handler m with
        | some v => some ⟨some v, schild.leaf_param_names.getD [], []⟩
        | none => none
      | none => none

/-- `MatchResult::from_params`: pair the i-th name with the i-th value; the
source unwraps `param_values.get(index)`, so a missing value is a panic,
embedded as `none`. -/
def from_params_list : List (List Char) → List (List Char) →
    Option (List (List Char × List Char))
  | [], _ => some []
  | _ :: _, [] => none
  | pn :: pns, pv :: pvs =>
    match from_params_list pns pvs with
    | some l => some ((pn, pv) :: l)
    | none => none

/-- The outcome of the public `search`, including the panic of
`v.value.clone().unwrap()` (and of the unwrap in `from_params`) as a
distinguished constructor. -/
inductive SearchOutcome (V : Type) : Type where
  | found : V → List (List Char × List Char) → SearchOutcome V
  | not_found : SearchOutcome V
  | panicked : SearchOutcome V
deriving DecidableEq, Repr

/-! ## The public operations -/

/-- `Node::insert`. -/
def Node.insert (n : Node V) (m : Method) (p : List Char) (v : V) :
    Except InsertErr (Node V) :=
  Node.insert_path ((strip_start_slash p).length + 1) n m (strip_start_slash p) v none

/-- `Node::remove`. -/
def Node.remove (n : Node V) (p : List Char) : Node V :=
  Node.remove_path ((strip_start_slash p).length + 1) n (strip_start_slash p)

/-- `Node::update`. -/
def Node.update (n : Node V) (m : Method) (p : List Char) (v : V) :
    Except UpdateErr (Node V) :=
  Node.update_path ((strip_start_slash p).length + 1) n m (strip_start_slash p) v

/-- `Node::search`: run `internal_search`, then unwrap the value and build
the parameter pairs. -/
def Node.search (n : Node V) (m : Method) (p : List Char) : SearchOutcome V :=
  match Node.internal_search ((strip_start_slash p).length + 1) n m (strip_start_slash p) with
  | none => .not_found
  | some mr =>
    match mr.value with
    | none => .panicked
    | some v =>
      match from_params_list mr.param_names mr.param_values with
      | none => .panicked
      | some ps => .found v ps

/-- Extract the tree from a successful registration (used to state concrete
scenarios; every scenario also asserts that the registration succeeded). -/
def ok_or_new (e : Except InsertErr (Node V)) : Node V :=
  e.toOption.getD Node.new

mutual

/-- The structure of a node: every field except the handler values
(the value type is replaced by `Unit`).  Two nodes with the same shape have
the same paths, branches and registered methods. -/
def Node.shape : Node V → Node Unit
  | .mk sp sc pc st lh lpn =>
    .mk sp (shape_pairs sc) (shape_opt pc) (shape_opt st)
      (lh.map fun q => (q.1, ())) lpn

/-- `Node.shape` over the static children. -/
def shape_pairs : List (Char × Node V) → List (Char × Node Unit)
  | [] => []
  | (ch, q) :: tl => (ch, Node.shape q) :: shape_pairs tl

/-- `Node.shape` over an optional child. -/
def shape_opt : Option (Node V) → Option (Node Unit)
  | none => none
  | some q => some (Node.shape q)

end

end Tree

/-! ## Concrete route tables used by the scenario claims -/

/-- The C1 scenario: GET `/a/b` → H1, GET `/a/$p` → H2, GET `/a/*` → H3. -/
def c1_routes : Except InsertErr (Node String) := do
  let a ← Node.new.insert .get "/a/b".toList "H1"
  let b ← a.insert .get "/a/$p".toList "H2"
  b.insert .get "/a/*".toList "H3"

/-- The C3/C5 scenario: a single GET `/a/b` route. -/
def c3_tree : Node String := ok_or_new (Node.new.insert .get "/a/b".toList "v1")

/-- The C5 scenario: first registration of GET `/a/b`. -/
def c5_first : Except InsertErr (Node String) := Node.new.insert .get "/a/b".toList "H1"

/-- The C7 scenario: two methods at `/a/b`, a sibling `/a/c`, a prefix `/a`. -/
def c7_routes : Except InsertErr (Node String) := do
  let a ← Node.new.insert .get "/a/b".toList "v1"
  let b ← a.insert .post "/a/b".toList "v2"
  let c ← b.insert .get "/a/c".toList "v3"
  c.insert .get "/a".toList "v4"

/-- The C8 scenario: the single pattern GET `/users/$id`. -/
def c8_routes : Except InsertErr (Node String) := Node.new.insert .get "/users/$id".toList "U8"

/-- The C9 scenario after two insertions. -/
def c9_two : Except InsertErr (Node String) := do
  let a ← Node.new.insert .get "/apple".toList "v1"
  a.insert .get "/application".toList "v2"

/-- The C9 scenario after the third insertion. -/
def c9_three : Except InsertErr (Node String) := do
  let a ← c9_two
  a.insert .get "/ape".toList "v3"

/-! ## Claim theorems -/

/-- C2: the public search is documented to return `Some`/`None` and never
fail, but the source unwraps `MatchResult.value` unconditionally: register
POST `/` and search GET `/` and the lookup reaches the root leaf with a
handler map that lacks GET, `internal_search` returns a result whose value
is `None`, and `search` panics on the unwrap.  This theorem evaluates the
embedding at that failing input. -/
theorem claim_C2_search_panics :
    (Node.new.insert .post "/".toList "H").isOk = true ∧
    (ok_or_new (Node.new.insert .post "/".toList "H")).search .get "/".toList
      = SearchOutcome.panicked := by
  exact ⟨rfl, rfl⟩

/-- C6: two registrations reaching the same leaf with different
parameter-name sequences of equal length fail with the ambiguity error
naming both lists (general leaf-registration statement), and in particular
GET `/a/$x` followed by POST `/a/$y` fails with exactly that error. -/
theorem claim_C6_ambiguous :
    (∀ (V : Type) (fuel : Nat) (sp : List Char) (sc : List (Char × Node V))
        (pc st : Option (Node V)) (lh : List (Method × V))
        (lnames names : List (List Char)) (m : Method) (v : V),
      names.length = lnames.length → names ≠ lnames →
      Node.insert_path (fuel + 1) (Node.mk sp sc pc st lh (some lnames)) m [] v (some names)
        = .error (.ambiguous lnames names)) ∧
    ((Node.new.insert .get "/a/$x".toList "1") >>= fun t => t.insert .post "/a/$y".toList "2")
      = .error (.ambiguous ["x".toList] ["y".toList]) := by
  constructor
  · intro V fuel sp sc pc st lh lnames names m v hlen hne
    simp [Node.insert_path, hlen, hne]
  · rfl

/-- C6 witness: the general leaf statement applied at the scenario's leaf. -/
theorem claim_C6_witness :
    Node.insert_path 1 (Node.mk [] [] none none [] (some ["x".toList]))
        .post [] ("2" : String) (some ["y".toList])
      = .error (.ambiguous ["x".toList] ["y".toList]) :=
  claim_C6_ambiguous.1 String 0 [] [] none none [] ["x".toList] ["y".toList] .post "2"
    (by decide) (by decide)

/-- C7: removing a path clears the handlers of every method at the reached
node (general statement for the empty remaining path), and a remove whose
next character matches no static index and is neither `$` nor `*` returns
the tree unchanged (general no-op statement); in the concrete scenario
removing `/a/b` makes both GET and POST at `/a/b` unfindable while the
sibling `/a/c` and the prefix route `/a` keep their values, and removes of
unmatched paths return the identical tree. -/
theorem claim_C7_remove :
    (∀ (V : Type) (fuel : Nat) (sp : List Char) (sc : List (Char × Node V))
        (pc st : Option (Node V)) (lh : List (Method × V))
        (lpn : Option (List (List Char))),
      Node.remove_path (fuel + 1) (Node.mk sp sc pc st lh lpn) []
        = Node.mk sp sc pc st [] none) ∧
    (∀ (V : Type) (fuel : Nat) (sp : List Char) (sc : List (Char × Node V))
        (pc st : Option (Node V)) (lh : List (Method × V))
        (lpn : Option (List (List Char))) (c : Char) (rest : List Char),
      static_find sc c = none → ¬ c = '$' → ¬ c = '*' →
      Node.remove_path (fuel + 1) (Node.mk sp sc pc st lh lpn) (c :: rest)
        = Node.mk sp sc pc st lh lpn) ∧
    c7_routes.isOk = true ∧
    ((ok_or_new c7_routes).remove "/a/b".toList).search .get "/a/b".toList = .not_found ∧
    ((ok_or_new c7_routes).remove "/a/b".toList).search .post "/a/b".toList = .not_found ∧
    ((ok_or_new c7_routes).remove "/a/b".toList).search .get "/a/c".toList = .found "v3" [] ∧
    ((ok_or_new c7_routes).remove "/a/b".toList).search .get "/a".toList = .found "v4" [] ∧
    (ok_or_new c7_routes).remove "/x/y".toList = ok_or_new c7_routes ∧
    (ok_or_new c7_routes).remove "/a/zz".toList = ok_or_new c7_routes := by
  refine ⟨fun V fuel sp sc pc st lh lpn => rfl, ?_, rfl, rfl, rfl, rfl, rfl, rfl, rfl⟩
  intro V fuel sp sc pc st lh lpn c rest hsf hd hs
  simp only [Node.remove_path]
  rw [hsf]
  dsimp only []
  rw [if_neg hd, if_neg hs]

/-- C7 witness: the general no-match no-op statement applied to a concrete
root with no branches at all. -/
theorem claim_C7_witness :
    Node.remove_path 1 (Node.mk "/".toList [] none none [(.get, "W7")] none)
        "x".toList
      = Node.mk "/".toList [] none none [(.get, "W7")] none :=
  claim_C7_remove.2.1 String 0 "/".toList [] none none [(.get, "W7")] none
    'x' [] rfl (by decide) (by decide)

/-- C8: an empty parameter segment never matches.  Generally: on a node
whose only possible branch is its parameter child (no static children, no
wildcard), any path whose next segment is empty finds nothing, for any fuel
and any handler map.  Concretely: with GET `/users/$id` registered,
searching `/users/` is a soft no-match, while `/users/42` binds id to 42. -/
theorem claim_C8_empty_param :
    (∀ (V : Type) (fuel : Nat) (sp : List Char) (pc : Option (Node V))
        (lh : List (Method × V)) (lpn : Option (List (List Char)))
        (m : Method) (p : List Char),
      Node.internal_search fuel (Node.mk sp [] pc none lh lpn) m ('/' :: p) = none) ∧
    c8_routes.isOk = true ∧
    (ok_or_new c8_routes).search .get "/users/".toList = .not_found ∧
    (ok_or_new c8_routes).search .get "/users/42".toList
      = .found "U8" [("id".toList, "42".toList)] := by
  refine ⟨fun V fuel sp pc lh lpn m p => ?_, rfl, rfl, rfl⟩
  cases fuel with
  | zero => rfl
  | succ fuel => cases pc <;> rfl

/-- C9: `/apple` then `/application` split into a shared-prefix structure
with both independently searchable; inserting `/ape` splits further without
disturbing either. -/
theorem claim_C9_split :
    c9_two.isOk = true ∧
    (ok_or_new c9_two).search .get "/apple".toList = .found "v1" [] ∧
    (ok_or_new c9_two).search .get "/application".toList = .found "v2" [] ∧
    c9_three.isOk = true ∧
    (ok_or_new c9_three).search .get "/apple".toList = .found "v1" [] ∧
    (ok_or_new c9_three).search .get "/application".toList = .found "v2" [] ∧
    (ok_or_new c9_three).search .get "/ape".toList = .found "v3" [] := by
  refine ⟨rfl, rfl, rfl, rfl, rfl, rfl, rfl⟩

/-- One non-empty-path step of `internal_search` is: try the static branch,
return it when it carries a value, otherwise run the parameter/wildcard
fallback. -/
theorem internal_search_cons {V : Type} (fuel : Nat) (sp : List Char)
    (sc : List (Char × Node V)) (pc st : Option (Node V))
    (lh : List (Method × V)) (lpn : Option (List (List Char)))
    (m : Method) (c : Char) (rest : List Char) :
    Node.internal_search (fuel + 1) (Node.mk sp sc pc st lh lpn) m (c :: rest)
      = if ((Node.static_attempt fuel (Node.mk sp sc pc st lh lpn) m
              (c :: rest)).filter fun mr => mr.value.isSome).isSome then
          Node.static_attempt fuel (Node.mk sp sc pc st lh lpn) m (c :: rest)
        else
          Node.param_star_fallback fuel (Node.mk sp sc pc st lh lpn) m (c :: rest) := rfl

/-- C1: search tries static, then parameter, then wildcard.  Generally, for
every tree: whenever the static attempt at a level produces no value — no
structural match, or a match whose leaf lacks a handler for the requested
method — the search at that level equals the parameter-then-wildcard
fallback, so the static subtree does not end the lookup.  Concretely, with
GET `/a/b` → H1, GET `/a/$p` → H2, GET `/a/*` → H3 registered: `/a/b` finds
H1, `/a/c` finds H2 with p bound to c, and `/a/b/c` finds H3. -/
theorem claim_C1_backtracking :
    (∀ (V : Type) (fuel : Nat) (n : Node V) (m : Method) (c : Char) (rest : List Char),
      (Node.static_attempt fuel n m (c :: rest)).bind MatchResult.value = none →
      Node.internal_search (fuel + 1) n m (c :: rest)
        = Node.param_star_fallback fuel n m (c :: rest)) ∧
    c1_routes.isOk = true ∧
    (ok_or_new c1_routes).search .get "/a/b".toList = .found "H1" [] ∧
    (ok_or_new c1_routes).search .get "/a/c".toList
      = .found "H2" [("p".toList, "c".toList)] ∧
    (ok_or_new c1_routes).search .get "/a/b/c".toList = .found "H3" [] := by
  refine ⟨?_, rfl, rfl, rfl, rfl⟩
  intro V fuel n m c rest h
  obtain ⟨sp, sc, pc, st, lh, lpn⟩ := n
  rw [internal_search_cons]
  cases hsa : Node.static_attempt fuel (Node.mk sp sc pc st lh lpn) m (c :: rest) with
  | none => simp [hsa]
  | some mr =>
    rw [hsa] at h
    simp only [Option.some_bind] at h
    simp [hsa, Option.filter, h]

/-- C1 witness: the general backtracking statement applied at a concrete
node whose static attempt is empty and whose wildcard holds the value. -/
theorem claim_C1_witness :
    Node.internal_search 2
        (Node.mk [] [] none (some (Node.mk [] [] none none [(.get, "W")] none)) [] none)
        .get "x".toList
      = Node.param_star_fallback 1
        (Node.mk [] [] none (some (Node.mk [] [] none none [(.get, "W")] none)) [] none)
        .get "x".toList :=
  claim_C1_backtracking.1 String 1
    (Node.mk [] [] none (some (Node.mk [] [] none none [(.get, "W")] none)) [] none)
    .get 'x' [] (by rfl)

/-- Inserting over an already-present key leaves the key set unchanged. -/
theorem shape_hm_insert {V : Type} (lh : List (Method × V)) (m : Method) (v : V)
    (h : hm_contains lh m = true) :
    (hm_insert lh m v).map (fun q => (q.1, ())) = lh.map (fun q => (q.1, ())) := by
  induction lh with
  | nil => simp [hm_contains, hm_get] at h
  | cons kv t ih =>
    obtain ⟨k, w⟩ := kv
    by_cases hk : k = m
    · simp [hm_insert, hk]
    · simp only [hm_insert, if_neg hk, List.map_cons]
      rw [ih (by simpa [hm_contains, hm_get, hk] using h)]

/-- `update_handler` replaces a value, never the structure. -/
theorem update_handler_shape {V : Type} (n r : Node V) (m : Method) (v : V)
    (h : Node.update_handler n m v = .ok r) : r.shape = n.shape := by
  obtain ⟨sp, sc, pc, st, lh, lpn⟩ := n
  simp only [Node.update_handler] at h
  by_cases hc : hm_contains lh m
  · rw [if_pos hc] at h
    simp only [Except.ok.injEq] at h
    subst h
    simp [Node.shape, shape_hm_insert lh m v hc]
  · rw [if_neg hc] at h
    exact absurd h (by simp)

/-- Replacing a static child by one of the same shape preserves the shape
of the child list. -/
theorem shape_pairs_replace {V : Type} (sc : List (Char × Node V)) (c : Char)
    (child child2 : Node V) (hf : static_find sc c = some child)
    (hs : child2.shape = child.shape) :
    shape_pairs (replace_static sc c child2) = shape_pairs sc := by
  induction sc with
  | nil => simp [static_find] at hf
  | cons q tl ih =>
    obtain ⟨ch, nd⟩ := q
    by_cases hc : ch = c
    · simp only [static_find, if_pos hc, Option.some.injEq] at hf
      simp [replace_static, hc, shape_pairs, hs, hf]
    · simp only [static_find, if_neg hc] at hf
      simp [replace_static, hc, shape_pairs, ih hf]

/-- The wildcard tail of the `update_path` fall-through preserves shape. -/
theorem update_star_shape_aux {V : Type} {sp : List Char}
    {sc : List (Char × Node V)} {pc st : Option (Node V)}
    {lh : List (Method × V)} {lpn : Option (List (List Char))}
    {m : Method} {c : Char} {v : V} {r : Node V}
    (h : (if c = '*' then
            match st with
            | some schild =>
              match Node.update_handler schild m v with
              | Except.error e => Except.error e
              | Except.ok schild2 => Except.ok (Node.mk sp sc pc (some schild2) lh lpn)
            | none => Except.ok (Node.mk sp sc pc st lh lpn)
          else Except.ok (Node.mk sp sc pc st lh lpn)) = Except.ok r) :
    r.shape = (Node.mk sp sc pc st lh lpn).shape := by
  by_cases hst : c = '*'
  · rw [if_pos hst] at h
    cases st with
    | some schild =>
      dsimp only [] at h
      cases hu : Node.update_handler schild m v with
      | error e => rw [hu] at h; exact absurd h (by simp)
      | ok schild2 =>
        rw [hu] at h
        simp only [Except.ok.injEq] at h
        subst h
        simp [Node.shape, shape_opt, update_handler_shape _ _ _ _ hu]
    | none =>
      dsimp only [] at h
      simp only [Except.ok.injEq] at h
      subst h
      rfl
  · rw [if_neg hst] at h
    simp only [Except.ok.injEq] at h
    subst h
    rfl

/-- The parameter-then-wildcard fall-through of `update_path` preserves
shape. -/
theorem update_fallback_shape_aux {V : Type} {fuel : Nat}
    (ih : ∀ (n : Node V) (m : Method) (p : List Char) (v : V) (r : Node V),
      Node.update_path fuel n m p v = .ok r → r.shape = n.shape)
    {sp : List Char} {sc : List (Char × Node V)} {pc st : Option (Node V)}
    {lh : List (Method × V)} {lpn : Option (List (List Char))}
    {m : Method} {c : Char} {rest : List Char} {v : V} {r : Node V}
    (h : (if c = '$' then
            match pc with
            | some pchild =>
              match Node.update_path fuel pchild m
                  ((c :: rest).drop (next_slash_pos (c :: rest))) v with
              | Except.error e => Except.error e
              | Except.ok pchild2 => Except.ok (Node.mk sp sc (some pchild2) st lh lpn)
            | none =>
              if c = '*' then
                match st with
                | some schild =>
                  match Node.update_handler schild m v with
                  | Except.error e => Except.error e
                  | Except.ok schild2 => Except.ok (Node.mk sp sc pc (some schild2) lh lpn)
                | none => Except.ok (Node.mk sp sc pc st lh lpn)
              else Except.ok (Node.mk sp sc pc st lh lpn)
          else
            if c = '*' then
              match st with
              | some schild =>
                match Node.update_handler schild m v with
                | Except.error e => Except.error e
                | Except.ok schild2 => Except.ok (Node.mk sp sc pc (some schild2) lh lpn)
              | none => Except.ok (Node.mk sp sc pc st lh lpn)
            else Except.ok (Node.mk sp sc pc st lh lpn)) = Except.ok r) :
    r.shape = (Node.mk sp sc pc st lh lpn).shape := by
  by_cases hd : c = '$'
  · rw [if_pos hd] at h
    cases pc with
    | some pchild =>
      dsimp only [] at h
      cases hrec : Node.update_path fuel pchild m
          ((c :: rest).drop (next_slash_pos (c :: rest))) v with
      | error e => rw [hrec] at h; exact absurd h (by simp)
      | ok pchild2 =>
        rw [hrec] at h
        simp only [Except.ok.injEq] at h
        subst h
        simp [Node.shape, shape_opt, ih _ _ _ _ _ hrec]
    | none =>
      dsimp only [] at h
      exact update_star_shape_aux h
  · rw [if_neg hd] at h
    exact update_star_shape_aux h

/-- A successful `update_path` never alters the tree structure. -/
theorem update_path_shape {V : Type} :
    ∀ (fuel : Nat) (n : Node V) (m : Method) (p : List Char) (v : V) (r : Node V),
      Node.update_path fuel n m p v = .ok r → r.shape = n.shape := by
  intro fuel
  induction fuel with
  | zero => intro n m p v r h; simp [Node.update_path] at h
  | succ fuel ih =>
    intro n m p v r h
    obtain ⟨sp, sc, pc, st, lh, lpn⟩ := n
    cases p with
    | nil => exact update_handler_shape _ _ _ _ h
    | cons c rest =>
      simp only [Node.update_path] at h
      cases hsf : static_find sc c with
      | some child =>
        rw [hsf] at h
        dsimp only [] at h
        by_cases hg : child.path ≠ [] ∧ starts_with (c :: rest) child.path = true
        · rw [if_pos hg] at h
          cases hrec : Node.update_path fuel child m
              ((c :: rest).drop child.path.length) v with
          | error e => rw [hrec] at h; exact absurd h (by simp)
          | ok child2 =>
            rw [hrec] at h
            simp only [Except.ok.injEq] at h
            subst h
            simp [Node.shape, shape_pairs_replace sc c child child2 hsf (ih _ _ _ _ _ hrec)]
        · rw [if_neg hg] at h
          exact update_fallback_shape_aux ih h
      | none =>
        rw [hsf] at h
        dsimp only [] at h
        exact update_fallback_shape_aux ih h

/-- C3 counterexample: the claim says update fails fatally also when the
path reaches no registered node at all; but on the empty tree, which has no
handler for GET `/a`, update returns successfully and leaves the tree
unchanged (the descent falls through every branch and silently returns). -/
theorem claim_C3_counterexample :
    (Node.new : Node String).update .get "/a".toList "v" = .ok Node.new := rfl

/-- C3 (amended): update replaces an existing handler's value without
altering the tree structure (generally: every successful update preserves
the shape); it fails fatally when the descent reaches an existing node
whose handler map lacks the method; and when the path does not resolve to
any node it silently does nothing.  Concretely on the GET `/a/b` table:
updating GET `/a/b` yields exactly the tree that registering the new value
directly would build; updating POST `/a/b` fails with the no-such-method
panic; updating GET `/zzz` returns the tree unchanged. -/
theorem claim_C3_update :
    (∀ (V : Type) (fuel : Nat) (n : Node V) (m : Method) (p : List Char) (v : V)
        (r : Node V),
      Node.update_path fuel n m p v = .ok r → r.shape = n.shape) ∧
    c3_tree.update .get "/a/b".toList "v9"
      = .ok (ok_or_new (Node.new.insert .get "/a/b".toList "v9")) ∧
    c3_tree.update .post "/a/b".toList "v9" = .error .no_such_method ∧
    c3_tree.update .get "/zzz".toList "v9" = .ok c3_tree := by
  exact ⟨fun V => update_path_shape, rfl, rfl, rfl⟩

/-- C3 witness: the general shape-preservation statement applied to the
concrete successful update of GET `/a/b`. -/
theorem claim_C3_witness :
    (ok_or_new (Node.new.insert .get "/a/b".toList ("v9" : String))).shape
      = c3_tree.shape :=
  claim_C3_update.1 String 4 c3_tree .get "a/b".toList "v9"
    (ok_or_new (Node.new.insert .get "/a/b".toList "v9")) (by rfl)

/-! ## Inserting the same route twice -/

/-- Looking up the key just inserted gives the new value. -/
theorem hm_get_insert_self {V : Type} (lh : List (Method × V)) (m : Method) (v : V) :
    hm_get (hm_insert lh m v) m = some v := by
  induction lh with
  | nil => simp [hm_insert, hm_get]
  | cons kv t ih =>
    obtain ⟨k, w⟩ := kv
    by_cases hk : k = m
    · simp [hm_insert, hm_get, hk]
    · simp [hm_insert, hm_get, hk, ih]

/-- The map contains the key just inserted. -/
theorem hm_contains_insert {V : Type} (lh : List (Method × V)) (m : Method) (v : V) :
    hm_contains (hm_insert lh m v) m = true := by
  simp [hm_contains, hm_get_insert_self]

/-- Finding after replacing at the same character yields the replacement. -/
theorem static_find_replace {V : Type} (sc : List (Char × Node V)) (c : Char)
    (child child2 : Node V) (hf : static_find sc c = some child) :
    static_find (replace_static sc c child2) c = some child2 := by
  induction sc with
  | nil => simp [static_find] at hf
  | cons q tl ih =>
    obtain ⟨ch, nd⟩ := q
    by_cases hc : ch = c
    · simp [replace_static, static_find, hc]
    · simp only [static_find, if_neg hc] at hf
      simp [replace_static, static_find, hc, ih hf]

/-- Finding after appending a pair with a previously absent character yields
the appended node. -/
theorem static_find_append {V : Type} (sc : List (Char × Node V)) (c : Char)
    (x : Node V) (hf : static_find sc c = none) :
    static_find (sc ++ [(c, x)]) c = some x := by
  induction sc with
  | nil => simp [static_find]
  | cons q tl ih =>
    obtain ⟨ch, nd⟩ := q
    by_cases hc : ch = c
    · simp [static_find, hc] at hf
    · simp only [static_find, if_neg hc] at hf
      simp [static_find, hc, ih hf]

/-- Every list starts with itself. -/
theorem starts_with_refl (l : List Char) : starts_with l l = true := by
  induction l with
  | nil => rfl
  | cons a t ih => simp [starts_with, ih]

/-- Every list starts with each of its `take` prefixes. -/
theorem starts_with_take (l : List Char) (n : Nat) :
    starts_with l (l.take n) = true := by
  induction l generalizing n with
  | nil => cases n <;> rfl
  | cons a t ih =>
    cases n with
    | zero => rfl
    | succ k => simp [List.take_succ_cons, starts_with, ih]

/-- The common prefix is no longer than the first list. -/
theorem common_prefix_len_le (a b : List Char) : common_prefix_len a b ≤ a.length := by
  induction a generalizing b with
  | nil => cases b <;> simp [common_prefix_len]
  | cons x xs ih =>
    cases b with
    | nil => simp [common_prefix_len]
    | cons y ys =>
      by_cases hxy : x = y
      · simpa [common_prefix_len, hxy] using ih ys
      · simp [common_prefix_len, hxy]

/-- A found slash position is within the string. -/
theorem find_slash_le (p : List Char) : ∀ i, find_slash p = some i → i ≤ p.length := by
  induction p with
  | nil => intro i h; simp [find_slash] at h
  | cons c rest ih =>
    intro i h
    by_cases hc : c = '/'
    · simp only [find_slash, if_pos hc, Option.some.injEq] at h
      omega
    · simp only [find_slash, if_neg hc, Option.map_eq_some'] at h
      obtain ⟨j, hj, rfl⟩ := h
      simpa using Nat.succ_le_succ (ih j hj)

/-- The next-slash position is within the string. -/
theorem next_slash_pos_le (p : List Char) : next_slash_pos p ≤ p.length := by
  unfold next_slash_pos
  cases hf : find_slash p with
  | none => simp
  | some i => simpa using find_slash_le p i hf

/-- The next-slash position of a segment that does not start with `/` is
positive. -/
theorem next_slash_pos_pos (c : Char) (rest : List Char) (h : ¬ c = '/') :
    0 < next_slash_pos (c :: rest) := by
  unfold next_slash_pos find_slash
  rw [if_neg h]
  cases find_slash rest <;> simp

/-- Every token consumes at least one character. -/
theorem insert_token_end_pos (c : Char) (rest : List Char) :
    0 < insert_token_end c rest := by
  unfold insert_token_end
  by_cases hc : c = '/'
  · simp [hc]
  · rw [if_neg hc]; exact next_slash_pos_pos c rest hc

/-- The token end is within the remaining path. -/
theorem insert_token_end_le (c : Char) (rest : List Char) :
    insert_token_end c rest ≤ (c :: rest).length := by
  unfold insert_token_end
  by_cases hc : c = '/'
  · simp [hc]
  · rw [if_neg hc]; exact next_slash_pos_le (c :: rest)

/-- The token's length is the token end. -/
theorem insert_token_length (c : Char) (rest : List Char) :
    (insert_token c rest).length = insert_token_end c rest := by
  unfold insert_token
  rw [List.length_take]
  exact Nat.min_eq_left (insert_token_end_le c rest)

/-- A successful `set_handler` leaves a map containing the method. -/
theorem set_handler_ok_contains {V : Type} (n n2 : Node V) (m : Method) (v : V)
    (h : Node.set_handler n m v = .ok n2) :
    hm_contains n2.leaf_handler m = true := by
  obtain ⟨sp, sc, pc, st, lh, lpn⟩ := n
  simp only [Node.set_handler] at h
  by_cases hc : hm_contains lh m
  · rw [if_pos hc] at h; exact absurd h (by simp)
  · rw [if_neg hc] at h
    simp only [Except.ok.injEq] at h
    subst h
    simpa [Node.leaf_handler] using hm_contains_insert lh m v

/-- `set_handler` on a map already containing the method is the duplicate
panic. -/
theorem set_handler_contains_error {V : Type} (n : Node V) (m : Method) (w : V)
    (h : hm_contains n.leaf_handler m = true) :
    Node.set_handler n m w = .error .duplicate_route := by
  obtain ⟨sp, sc, pc, st, lh, lpn⟩ := n
  simp only [Node.leaf_handler] at h
  simp [Node.set_handler, h]

/-- Setting the parameter names does not touch the handler map. -/
theorem with_lpn_leaf_handler {V : Type} (n : Node V)
    (l : Option (List (List Char))) :
    (n.with_lpn l).leaf_handler = n.leaf_handler := by
  obtain ⟨a, b, c, d, e, f⟩ := n
  rfl

/-- Accessor equation: `path` of a constructed node. -/
theorem path_mk {V : Type} (a : List Char) (b : List (Char × Node V))
    (c d : Option (Node V)) (e : List (Method × V))
    (f : Option (List (List Char))) : (Node.mk a b c d e f).path = a := rfl

/-- Accessor equation: `leaf_handler` of a constructed node. -/
theorem leaf_handler_mk {V : Type} (a : List Char) (b : List (Char × Node V))
    (c d : Option (Node V)) (e : List (Method × V))
    (f : Option (List (List Char))) : (Node.mk a b c d e f).leaf_handler = e := rfl

/-- `insert_path` never changes the node's own `path` field. -/
theorem insert_path_path {V : Type} (fuel : Nat) (t : Node V) (m : Method)
    (p : List Char) (v : V) (na : Option (List (List Char))) (t2 : Node V)
    (h : Node.insert_path fuel t m p v na = .ok t2) : t2.path = t.path := by
  cases fuel with
  | zero => simp [Node.insert_path] at h
  | succ fuel =>
    obtain ⟨sp, sc, pc, st, lh, lpn⟩ := t
    cases p with
    | nil =>
      simp only [Node.insert_path, Node.set_handler] at h
      repeat' split at h
      all_goals
        first
        | (simp only [Except.ok.injEq] at h; subst h; rfl)
        | simp at h
    | cons c rest =>
      simp only [Node.insert_path, Node.set_handler] at h
      repeat' split at h
      all_goals
        first
        | (simp only [Except.ok.injEq] at h; subst h; rfl)
        | simp at h

/-- When a second insertion of the same token arrives at a child whose path
the first insertion left equal to the split result's path, the split is
stable: the child is not restructured and the same length is consumed. -/
theorem split_child_stable {V : Type} (child child2 : Node V) (token : List Char)
    (hpath : child2.path = (split_child child token).1.path) :
    split_child child2 token = (child2, (split_child child token).2) := by
  by_cases hsw : starts_with token child.path = true
  · have h1 : split_child child token = (child, child.path.length) := by
      unfold split_child
      rw [if_pos hsw]
    rw [h1] at hpath ⊢
    dsimp only [] at hpath ⊢
    have h2 : split_child child2 token = (child2, child2.path.length) := by
      unfold split_child
      rw [if_pos (show starts_with token child2.path = true by rw [hpath]; exact hsw)]
    rw [h2, hpath]
  · have h1 : split_child child token =
        (Node.mk (token.take (common_prefix_len token child.path))
          [((child.path.drop (common_prefix_len token child.path)).headD 'A',
            child.with_path (child.path.drop (common_prefix_len token child.path)))]
          none none [] none, common_prefix_len token child.path) := by
      unfold split_child
      rw [if_neg hsw]
    rw [h1] at hpath ⊢
    dsimp only [] at hpath ⊢
    rw [path_mk] at hpath
    have h2 : split_child child2 token = (child2, child2.path.length) := by
      unfold split_child
      rw [if_pos (show starts_with token child2.path = true by
        rw [hpath]; exact starts_with_take token (common_prefix_len token child.path))]
    rw [h2, hpath, List.length_take,
      Nat.min_eq_left (common_prefix_len_le token child.path)]

/-- Splitting against a child whose path is exactly the token consumes the
whole token and keeps the child. -/
theorem split_child_self {V : Type} (child2 : Node V) (token : List Char)
    (hpath : child2.path = token) :
    split_child child2 token = (child2, token.length) := by
  have h2 : split_child child2 token = (child2, child2.path.length) := by
    unfold split_child
    rw [if_pos (show starts_with token child2.path = true by
      rw [hpath]; exact starts_with_refl token)]
  rw [h2, hpath]

/-- Registering the same (method, path) pair twice: when the first
registration succeeds, repeating it on the resulting tree fails with the
duplicate-route panic — for every tree, method, path, pair of values and
parameter-name accumulator. -/
theorem insert_path_twice {V : Type} :
    ∀ (fuel : Nat) (t t2 : Node V) (m : Method) (p : List Char) (v w : V)
      (na : Option (List (List Char))),
      Node.insert_path fuel t m p v na = .ok t2 →
      Node.insert_path fuel t2 m p w na = .error .duplicate_route := by
  intro fuel
  induction fuel with
  | zero => intro t t2 m p v w na h; simp [Node.insert_path] at h
  | succ fuel ih =>
    intro t t2 m p v w na h
    obtain ⟨sp, sc, pc, st, lh, lpn⟩ := t
    cases p with
    | nil =>
      cases na with
      | none =>
        simp only [Node.insert_path, Node.set_handler] at h
        by_cases hc : hm_contains lh m
        · rw [if_pos hc] at h; simp at h
        · rw [if_neg hc] at h
          simp only [Except.ok.injEq] at h
          subst h
          simp only [Node.insert_path, Node.set_handler]
          rw [if_pos (hm_contains_insert lh m v)]
      | some names =>
        cases lpn with
        | none =>
          simp only [Node.insert_path, Node.set_handler] at h
          by_cases hc : hm_contains lh m
          · rw [if_pos hc] at h; simp at h
          · rw [if_neg hc] at h
            simp only [Except.ok.injEq] at h
            subst h
            simp only [Node.insert_path, Node.set_handler]
            rw [if_neg (show ¬ names.length ≠ names.length by simp)]
            rw [if_neg (show ¬ names ≠ names by simp)]
            rw [if_pos (hm_contains_insert lh m v)]
        | some leaf_names =>
          simp only [Node.insert_path] at h
          by_cases hlen : names.length ≠ leaf_names.length
          · rw [if_pos hlen] at h; simp at h
          · rw [if_neg hlen] at h
            by_cases hne : names ≠ leaf_names
            · rw [if_pos hne] at h; simp at h
            · rw [if_neg hne] at h
              simp only [Node.set_handler] at h
              by_cases hc : hm_contains lh m
              · rw [if_pos hc] at h; simp at h
              · rw [if_neg hc] at h
                simp only [Except.ok.injEq] at h
                subst h
                simp only [Node.insert_path, Node.set_handler]
                rw [if_neg hlen, if_neg hne]
                rw [if_pos (hm_contains_insert lh m v)]
    | cons c rest =>
      simp only [Node.insert_path] at h
      by_cases hd : c = '$'
      · rw [if_pos hd] at h
        cases hrec : Node.insert_path fuel
            (opt_child pc (Node.mk (param_name c rest) [] none none [] none)) m
            (insert_remaining c rest) v (push_param_name na (param_name c rest)) with
        | error e => rw [hrec] at h; simp at h
        | ok pchild2 =>
          rw [hrec] at h
          simp only [Except.ok.injEq] at h
          subst h
          simp only [Node.insert_path]
          rw [if_pos hd]
          rw [show opt_child (some pchild2)
            (Node.mk (param_name c rest) [] none none [] none) = pchild2 from rfl]
          rw [ih _ _ _ _ _ _ _ hrec]
      · rw [if_neg hd] at h
        by_cases hs : c = '*'
        · rw [if_pos hs] at h
          by_cases hones : (c :: rest) ≠ ['*']
          · rw [if_pos hones] at h; simp at h
          · rw [if_neg hones] at h
            cases hsh : Node.set_handler (opt_child st Node.default_node) m v with
            | error e => rw [hsh] at h; simp at h
            | ok schild2 =>
              rw [hsh] at h
              simp only [Except.ok.injEq] at h
              subst h
              simp only [Node.insert_path]
              rw [if_neg hd, if_pos hs, if_neg hones]
              rw [show opt_child (some (schild2.with_lpn na))
                (Node.default_node : Node V) = schild2.with_lpn na from rfl]
              rw [set_handler_contains_error (schild2.with_lpn na) m w
                (by rw [with_lpn_leaf_handler]
                    exact set_handler_ok_contains _ _ _ _ hsh)]
        · rw [if_neg hs] at h
          cases hsf : static_find sc c with
          | some child =>
            rw [hsf] at h
            dsimp only [] at h
            by_cases hz : (split_child child (insert_token c rest)).2 = 0
            · rw [if_pos hz] at h; simp at h
            · rw [if_neg hz] at h
              cases hrec : Node.insert_path fuel
                  (split_child child (insert_token c rest)).1 m
                  ((c :: rest).drop (split_child child (insert_token c rest)).2) v na with
              | error e => rw [hrec] at h; simp at h
              | ok child2 =>
                rw [hrec] at h
                simp only [Except.ok.injEq] at h
                subst h
                simp only [Node.insert_path]
                rw [if_neg hd, if_neg hs]
                rw [static_find_replace sc c child child2 hsf]
                dsimp only []
                rw [split_child_stable child child2 (insert_token c rest)
                  (insert_path_path fuel _ m _ v na child2 hrec)]
                dsimp only []
                rw [if_neg hz]
                rw [ih _ _ _ _ _ _ _ hrec]
          | none =>
            rw [hsf] at h
            dsimp only [] at h
            cases hrec : Node.insert_path fuel
                (Node.mk (insert_token c rest) [] none none [] none) m
                (insert_remaining c rest) v na with
            | error e => rw [hrec] at h; simp at h
            | ok child2 =>
              rw [hrec] at h
              simp only [Except.ok.injEq] at h
              subst h
              have hp : child2.path = insert_token c rest := by
                rw [insert_path_path fuel _ m _ v na child2 hrec]
                rfl
              simp only [Node.insert_path]
              rw [if_neg hd, if_neg hs]
              rw [static_find_append sc c child2 hsf]
              dsimp only []
              rw [split_child_self child2 (insert_token c rest) hp]
              dsimp only []
              rw [if_neg (show ¬ (insert_token c rest).length = 0 by
                rw [insert_token_length]
                exact (insert_token_end_pos c rest).ne')]
              rw [show (c :: rest).drop (insert_token c rest).length
                = insert_remaining c rest by rw [insert_token_length]; rfl]
              rw [ih _ _ _ _ _ _ _ hrec]

/-- C5: inserting the same (method, path) pair twice fails with the
duplicate-route error — generally, through the public insert, for every
tree, method, path and pair of values — and the failed second call leaves
the tree unchanged: concretely, after GET `/a/b` → H1 a second registration
errs and search still returns H1 (the error carries no tree, so the caller
keeps the first tree, matching the source where the panic happens before
any mutation on this descent). -/
theorem claim_C5_duplicate :
    (∀ (V : Type) (t t2 : Node V) (m : Method) (p : List Char) (v w : V),
      t.insert m p v = .ok t2 → t2.insert m p w = .error .duplicate_route) ∧
    c5_first.isOk = true ∧
    (ok_or_new c5_first).insert .get "/a/b".toList "H9" = .error .duplicate_route ∧
    (ok_or_new c5_first).search .get "/a/b".toList = .found "H1" [] := by
  refine ⟨?_, rfl, rfl, rfl⟩
  intro V t t2 m p v w h
  exact insert_path_twice _ t t2 m _ v w none h

/-- C5 witness: the general duplicate statement applied to the concrete
second registration of GET `/a/b`. -/
theorem claim_C5_witness :
    (ok_or_new c5_first).insert .get "/a/b".toList ("H9" : String)
      = .error .duplicate_route :=
  claim_C5_duplicate.1 String Node.new (ok_or_new c5_first) .get "/a/b".toList
    "H1" "H9" rfl

/-! ## Single-route insert/search correctness (claim C4) -/

/-- A list starts with itself in front of any continuation. -/
theorem starts_with_append_left (l p : List Char) :
    starts_with (l ++ p) l = true := by
  induction l with
  | nil => cases p <;> rfl
  | cons a t ih => simp [starts_with, ih]

/-- Scanning for a slash past a slash-free block. -/
theorem find_slash_append_none (l : List Char) (h : find_slash l = none)
    (p : List Char) :
    find_slash (l ++ p) = (find_slash p).map (· + l.length) := by
  induction l with
  | nil =>
    simp only [List.nil_append]
    cases find_slash p <;> simp
  | cons a t ih =>
    by_cases ha : a = '/'
    · simp [find_slash, ha] at h
    · simp only [find_slash, if_neg ha, Option.map_eq_none'] at h
      have ih2 := ih h
      simp only [List.cons_append, find_slash, if_neg ha, List.append_eq, ih2]
      cases find_slash p with
      | none => rfl
      | some i => simp; omega

/-- The next-slash position after a slash-free segment followed by a
separator (or the end of the path) is the segment's length. -/
theorem next_slash_pos_append (value p : List Char) (hv : find_slash value = none)
    (hp : p = [] ∨ ∃ p0, p = '/' :: p0) :
    next_slash_pos (value ++ p) = value.length := by
  unfold next_slash_pos
  rw [find_slash_append_none value hv p]
  rcases hp with rfl | ⟨p0, rfl⟩
  · simp [find_slash]
  · simp [find_slash]

/-- Dropping to a found slash position lands on the slash. -/
theorem find_slash_drop (p : List Char) :
    ∀ i, find_slash p = some i → ∃ p0, p.drop i = '/' :: p0 := by
  induction p with
  | nil => intro i h; simp [find_slash] at h
  | cons a t ih =>
    intro i h
    by_cases ha : a = '/'
    · simp only [find_slash, if_pos ha, Option.some.injEq] at h
      exact ⟨t, by simp [← h, ha]⟩
    · simp only [find_slash, if_neg ha, Option.map_eq_some'] at h
      obtain ⟨j, hj, rfl⟩ := h
      simpa using ih j hj

/-- What remains after a non-separator token is empty or starts with a
separator. -/
theorem insert_remaining_shape (c : Char) (rest : List Char) (hc : c ≠ '/') :
    insert_remaining c rest = [] ∨ ∃ p0, insert_remaining c rest = '/' :: p0 := by
  unfold insert_remaining insert_token_end
  rw [if_neg hc]
  unfold next_slash_pos
  cases hf : find_slash (c :: rest) with
  | none => left; simp
  | some i => right; simpa using find_slash_drop (c :: rest) i hf

/-- A path consistent with the empty pattern is empty. -/
theorem pattern_consistent_nil_path (p : List Char) (pnames vals : List (List Char))
    (h : pattern_consistent [] p pnames vals) : p = [] := by
  cases h
  rfl

/-- A path consistent with a pattern that starts with a separator starts
with a separator. -/
theorem pattern_consistent_slash_path (q0 p : List Char)
    (pnames vals : List (List Char))
    (h : pattern_consistent ('/' :: q0) p pnames vals) : ∃ p0, p = '/' :: p0 := by
  cases h with
  | static c rest p' pnames' vals' h1 h2 h3 =>
    exact ⟨p', by simp [insert_token, insert_token_end]⟩

/-- A consistent instantiation binds as many values as there are parameter
names. -/
theorem pattern_consistent_length {q p : List Char} {pnames vals : List (List Char)}
    (h : pattern_consistent q p pnames vals) : pnames.length = vals.length := by
  induction h <;> simp [*]

/-- With as many values as names, `from_params` is exactly the zip. -/
theorem from_params_list_eq_zip :
    ∀ (ns vs : List (List Char)), ns.length = vs.length →
      from_params_list ns vs = some (ns.zip vs) := by
  intro ns
  induction ns with
  | nil => intro vs h; simp [from_params_list]
  | cons n nt ih =>
    intro vs h
    cases vs with
    | nil => simp at h
    | cons v vt =>
      simp only [from_params_list, ih vt (by simpa using h)]
      simp

/-- Every token starts with the head character of the remaining path. -/
theorem insert_token_cons_ex (c : Char) (rest : List Char) :
    ∃ tt, insert_token c rest = c :: tt := by
  unfold insert_token
  cases he : insert_token_end c rest with
  | zero => exact absurd he (insert_token_end_pos c rest).ne'
  | succ k => exact ⟨rest.take k, by simp⟩

/-- Pushing a parameter name appends it to the accumulated list. -/
theorem push_param_name_getD (na : Option (List (List Char))) (n : List Char) :
    (push_param_name na n).getD [] = na.getD [] ++ [n] := by
  cases na <;> rfl

/-- Single-route correctness: register a pattern into a node that has no
children and no handlers; searching any consistent instantiation of the
pattern finds the registered value, with the accumulated parameter names
and the instantiation's segment values, for any sufficient search fuel. -/
theorem single_route_search {V : Type} :
    ∀ (fuel : Nat) (sp : List Char) (m : Method) (q : List Char) (v : V)
      (na : Option (List (List Char))) (t2 : Node V) (p : List Char)
      (pnames vals : List (List Char)),
      Node.insert_path fuel (Node.mk sp [] none none [] none) m q v na = .ok t2 →
      pattern_consistent q p pnames vals →
      ∀ fuel2, p.length < fuel2 →
      Node.internal_search fuel2 t2 m p
        = some ⟨some v, na.getD [] ++ pnames, vals⟩ := by
  intro fuel
  induction fuel with
  | zero =>
    intro sp m q v na t2 p pnames vals h _ _ _
    simp [Node.insert_path] at h
  | succ fuel ih =>
    intro sp m q v na t2 p pnames vals h hcon fuel2 hf2
    cases hcon with
    | nil =>
      cases fuel2 with
      | zero => omega
      | succ f2 =>
        cases na with
        | none =>
          simp [Node.insert_path, Node.set_handler, hm_contains, hm_get,
            hm_insert] at h
          subst h
          simp [Node.internal_search, hm_get]
        | some names =>
          simp [Node.insert_path, Node.set_handler, hm_contains, hm_get,
            hm_insert] at h
          subst h
          simp [Node.internal_search, hm_get]
    | star p0r hpne =>
      simp [Node.insert_path, Node.set_handler, opt_child, Node.default_node,
        Node.with_lpn, hm_contains, hm_get, hm_insert] at h
      subst h
      cases p with
      | nil => exact absurd rfl hpne
      | cons p0 prest =>
        cases fuel2 with
        | zero => omega
        | succ f2 =>
          simp [Node.internal_search, static_find, hm_get, hm_insert,
            Node.leaf_param_names]
    | static c rest p' pnames2 vals2 hc1 hc2 hcon' =>
      simp only [Node.insert_path] at h
      rw [if_neg hc1, if_neg hc2] at h
      simp only [static_find] at h
      cases hrec : Node.insert_path fuel
          (Node.mk (insert_token c rest) [] none none [] none) m
          (insert_remaining c rest) v na with
      | error e => rw [hrec] at h; simp at h
      | ok child2 =>
        rw [hrec] at h
        simp only [Except.ok.injEq, List.nil_append] at h
        subst h
        have hcp : child2.path = insert_token c rest := by
          rw [insert_path_path fuel _ m _ v na child2 hrec]
          rfl
        obtain ⟨tt, htok⟩ := insert_token_cons_ex c rest
        cases fuel2 with
        | zero => omega
        | succ f2 =>
          have hf2' : p'.length < f2 := by
            have h2 := hf2
            simp only [List.length_append, insert_token_length] at h2
            have h1 : 0 < insert_token_end c rest := insert_token_end_pos c rest
            omega
          have hih := ih (insert_token c rest) m (insert_remaining c rest) v na
            child2 p' pnames vals hrec hcon' f2 hf2'
          have hguard : child2.path ≠ [] ∧
              starts_with (c :: (tt ++ p')) child2.path = true := by
            constructor
            · rw [hcp, htok]; simp
            · rw [hcp, htok]
              exact starts_with_append_left (c :: tt) p'
          rw [show insert_token c rest ++ p' = c :: (tt ++ p') by
            rw [htok]; rfl]
          simp only [Node.internal_search]
          rw [show static_find [(c, child2)] c = some child2 by
            simp [static_find]]
          dsimp only []
          rw [if_pos hguard]
          rw [show (c :: (tt ++ p')).drop child2.path.length = p' by
            rw [hcp, htok]
            exact List.drop_left (c :: tt) p']
          rw [hih]
          simp
    | param rest p' value pnames' vals' hvne hvsl hcon' =>
      simp only [Node.insert_path] at h
      simp only [if_true] at h
      dsimp only [opt_child] at h
      cases hrec : Node.insert_path fuel
          (Node.mk (param_name '$' rest) [] none none [] none) m
          (insert_remaining '$' rest) v
          (push_param_name na (param_name '$' rest)) with
      | error e => rw [hrec] at h; simp at h
      | ok pchild2 =>
        rw [hrec] at h
        simp only [Except.ok.injEq] at h
        subst h
        have hshape : p' = [] ∨ ∃ p0, p' = '/' :: p0 := by
          rcases insert_remaining_shape '$' rest (by decide) with hsh | ⟨p0, hsh⟩
          · left; rw [hsh] at hcon'
            exact pattern_consistent_nil_path _ _ _ hcon'
          · right; rw [hsh] at hcon'
            exact pattern_consistent_slash_path p0 _ _ _ hcon'
        have hns : next_slash_pos (value ++ p') = value.length :=
          next_slash_pos_append value p' hvsl hshape
        cases value with
        | nil => exact absurd rfl hvne
        | cons v0 vtail =>
          cases fuel2 with
          | zero => omega
          | succ f2 =>
            have hf2' : p'.length < f2 := by
              have h2 := hf2
              simp only [List.length_append, List.length_cons] at h2
              omega
            have hih := ih (param_name '$' rest) m (insert_remaining '$' rest)
              v (push_param_name na (param_name '$' rest)) pchild2 p'
              pnames' vals' hrec hcon' f2 hf2'
            rw [show (v0 :: vtail) ++ p' = v0 :: (vtail ++ p') from rfl]
            simp only [Node.internal_search]
            rw [show static_find ([] : List (Char × Node V)) v0 = none by rfl]
            dsimp only []
            rw [show v0 :: (vtail ++ p') = (v0 :: vtail) ++ p' from rfl, hns]
            rw [List.take_left, List.drop_left]
            rw [if_neg (by simp : ¬ (v0 :: vtail : List Char) = [])]
            rw [hih]
            simp [push_param_name_getD]

/-- C4 counterexample: the claim quantifies over every registered pattern
and every consistent concrete path; it fails when another registered route
shadows the pattern.  In the C1 table the pattern GET `/a/$p` → H2 is
registered, and the concrete path `/a/b` is consistent with it (binding p
to b), yet searching `/a/b` returns the static route's H1, not H2 with
that binding. -/
theorem claim_C4_counterexample :
    c1_routes.isOk = true ∧
    pattern_consistent "a/$p".toList "a/b".toList ["p".toList] ["b".toList] ∧
    (ok_or_new c1_routes).search .get "/a/b".toList = .found "H1" [] ∧
    (ok_or_new c1_routes).search .get "/a/b".toList
      ≠ .found "H2" [("p".toList, "b".toList)] := by
  refine ⟨rfl, ?_, rfl, by decide⟩
  exact .static 'a' "/$p".toList "/b".toList _ _ (by decide) (by decide)
    (.static '/' "$p".toList "b".toList _ _ (by decide) (by decide)
      (.param "p".toList [] "b".toList [] [] (by decide) (by decide) .nil))

/-- C4 (amended): for every (method, path pattern, value) registered into
an otherwise empty tree — so that no other registered route can shadow it —
searching any concrete path consistent with the pattern returns the value
with the correct parameter bindings, ordered left-to-right as the parameter
names appear in the pattern; in particular `/users/$id/posts/$postId`
looked up at `/users/42/posts/7` yields `[(id, 42), (postId, 7)]`, for
every method and handler value. -/
theorem claim_C4_param_order :
    (∀ (V : Type) (m : Method) (q : List Char) (v : V) (t2 : Node V)
        (p : List Char) (pnames vals : List (List Char)),
      Node.new.insert m q v = .ok t2 →
      pattern_consistent (strip_start_slash q) (strip_start_slash p) pnames vals →
      t2.search m p = .found v (pnames.zip vals)) ∧
    (∀ (V : Type) (v : V) (m : Method),
      (Node.new.insert m "/users/$id/posts/$postId".toList v).map
        (fun t => t.search m "/users/42/posts/7".toList)
      = .ok (.found v [("id".toList, "42".toList), ("postId".toList, "7".toList)])) := by
  constructor
  · intro V m q v t2 p pnames vals hins hcon
    have hlen : pnames.length = vals.length := pattern_consistent_length hcon
    have hmain := single_route_search ((strip_start_slash q).length + 1)
      "/".toList m (strip_start_slash q) v none t2 (strip_start_slash p)
      pnames vals hins hcon ((strip_start_slash p).length + 1) (by omega)
    unfold Node.search
    rw [hmain]
    dsimp only []
    simp only [Option.getD, List.nil_append]
    rw [from_params_list_eq_zip pnames vals hlen]
  · intro V v m
    cases m <;> rfl

/-- C4 witness: the general statement applied to the single registered
pattern GET `/a/$p` and the consistent concrete path `/a/c`. -/
theorem claim_C4_witness :
    (ok_or_new (Node.new.insert .get "/a/$p".toList ("W4" : String))).search
        .get "/a/c".toList
      = .found "W4" [("p".toList, "c".toList)] :=
  claim_C4_param_order.1 String .get "/a/$p".toList "W4"
    (ok_or_new (Node.new.insert .get "/a/$p".toList "W4")) "/a/c".toList
    ["p".toList] ["c".toList] rfl
    (.static 'a' "/$p".toList "/c".toList _ _ (by decide) (by decide)
      (.static '/' "$p".toList "c".toList _ _ (by decide) (by decide)
        (.param "p".toList [] "c".toList [] [] (by decide) (by decide) .nil)))

end RadixTree
